import Mathlib

/-!
Shallow embedding of the Dynamic Multilevel Cache Management System
(`src/code.py` / `src/code1.0.py`; the engine classes are identical in both).

Python's `OrderedDict` and `Counter` are modelled as insertion-ordered
association lists (`List (String × _)`): assignment to an existing key
updates the value in place, assignment to a fresh key appends at the tail,
deletion removes the entry.  Operations that can raise
(`OrderedDict.popitem` on an empty dict, `min` of an empty sequence,
`dict.pop` of a missing key, indexing `levels[0]` of an empty list) are
modelled with `Option`: `none` is a raised exception propagating to the
caller.
-/

/-- Lookup in an insertion-ordered association list (Python `d[k]` read /
`k in d` test). -/
def odLookup {α : Type} (l : List (String × α)) (k : String) : Option α :=
  match l with
  | [] => none
  | (k', v) :: rest => if k' = k then some v else odLookup rest k

/-- The keys of an ordered dict, in iteration order. -/
def odKeys {α : Type} (l : List (String × α)) : List String :=
  l.map Prod.fst

/-- Python `d[k] = v`: update in place when the key is present, append at
the tail otherwise. -/
def odAssign {α : Type} (l : List (String × α)) (k : String) (v : α) :
    List (String × α) :=
  match l with
  | [] => [(k, v)]
  | (k', v') :: rest => if k' = k then (k, v) :: rest else (k', v') :: odAssign rest k v

/-- Python `del d[k]` / the removal step of `dict.pop`: drop the entry with
key `k` (the first one, which is the only one for a genuine dict). -/
def odErase {α : Type} (l : List (String × α)) (k : String) : List (String × α) :=
  match l with
  | [] => []
  | (k', v') :: rest => if k' = k then rest else (k', v') :: odErase rest k

/-- Python `d.pop(k)` with no default: raises `KeyError` when `k` is
missing. -/
def odPop {α : Type} (l : List (String × α)) (k : String) :
    Option (α × List (String × α)) :=
  match odLookup l k with
  | some v => some (v, odErase l k)
  | none => none

/-- `Counter` read: a missing key reads as `0` (and is not inserted). -/
def ctrGet (l : List (String × Nat)) (k : String) : Nat :=
  (odLookup l k).getD 0

/-- `self.frequency[key] += 1` on a `Counter`. -/
def ctrIncr (l : List (String × Nat)) (k : String) : List (String × Nat) :=
  odAssign l k (ctrGet l k + 1)

/-- The scanning body of Python `min(freq, key=lambda k: freq[k])`:
carries the best (key, count) so far and replaces it only on a strictly
smaller count, so the first minimal element in iteration order wins. -/
def pyMinScan (bk : String) (bc : Nat) : List (String × Nat) → String
  | [] => bk
  | (k, c) :: rest => if c < bc then pyMinScan k c rest else pyMinScan bk bc rest

/-- Python `min(self.frequency, key=lambda k: self.frequency[k])`:
`none` models the `ValueError` raised on an empty sequence. -/
def pyMinBy (l : List (String × Nat)) : Option String :=
  match l with
  | [] => none
  | (k, c) :: rest => some (pyMinScan k c rest)

/-- `LRUPolicy`: `size` and the `OrderedDict` store (`code.py` lines 6-10,
26). The per-instance `Lock` has no observable effect in the fully
synchronous semantics and is not part of the state. -/
structure LRUPolicy where
  size : Int
  cache : List (String × String)
  deriving DecidableEq, Repr

/-- `LFUPolicy`: the store plus the `Counter` of access counts
(`code.py` lines 46-49). -/
structure LFUPolicy where
  size : Int
  cache : List (String × String)
  frequency : List (String × Nat)
  deriving DecidableEq, Repr

/-- `LRUPolicy.get` (`code.py` lines 27-33): on a hit, `move_to_end` then
return the value; a miss returns `None` with no side effect. -/
def lruGet (s : LRUPolicy) (k : String) : Option String × LRUPolicy :=
  match odLookup s.cache k with
  | some v => (some v, { s with cache := odErase s.cache k ++ [(k, v)] })
  | none => (none, s)

/-- `LRUPolicy.put` (`code.py` lines 35-43): move-to-end on an existing
key, else `popitem(last=False)` when at or over capacity (raising on an
empty store), then `cache[key] = value` unconditionally. -/
def lruPut (s : LRUPolicy) (k v : String) : Option LRUPolicy :=
  match odLookup s.cache k with
  | some v0 => some { s with cache := odAssign (odErase s.cache k ++ [(k, v0)]) k v }
  | none =>
    if (s.cache.length : Int) ≥ s.size then
      match s.cache with
      | [] => none
      | _ :: rest => some { s with cache := odAssign rest k v }
    else
      some { s with cache := odAssign s.cache k v }

/-- `EvictionPolicy.remove` (`code.py` lines 18-20): delete from
`self.cache` when present. -/
def evRemove (c : List (String × String)) (k : String) : List (String × String) :=
  if (odLookup c k).isSome then odErase c k else c

/-- `remove` as inherited by `LRUPolicy`. -/
def lruRemove (s : LRUPolicy) (k : String) : LRUPolicy :=
  { s with cache := evRemove s.cache k }

/-- `remove` as inherited by `LFUPolicy`: only `self.cache` is touched;
`self.frequency` keeps the key's count. -/
def lfuRemove (s : LFUPolicy) (k : String) : LFUPolicy :=
  { s with cache := evRemove s.cache k }

/-- `LFUPolicy.get` (`code.py` lines 51-56): on a hit, increment the
key's count and return the value. -/
def lfuGet (s : LFUPolicy) (k : String) : Option String × LFUPolicy :=
  match odLookup s.cache k with
  | some v => (some v, { s with frequency := ctrIncr s.frequency k })
  | none => (none, s)

/-- `LFUPolicy.put` (`code.py` lines 58-69): on an existing key update
value and count; else when at or over capacity evict the `min`-count key
(raising when `frequency` is empty or when the chosen key is missing from
the store); finally `cache[key] = value` and `frequency[key] = 1`,
unconditionally. -/
def lfuPut (s : LFUPolicy) (k v : String) : Option LFUPolicy :=
  match odLookup s.cache k with
  | some _ =>
    some { s with
      cache := odAssign (odAssign s.cache k v) k v,
      frequency := odAssign (ctrIncr s.frequency k) k 1 }
  | none =>
    if (s.cache.length : Int) ≥ s.size then
      match pyMinBy s.frequency with
      | none => none
      | some lfuKey =>
        match odPop s.cache lfuKey with
        | none => none
        | some wc =>
          some { s with
            cache := odAssign wc.2 k v,
            frequency := odAssign (odErase s.frequency lfuKey) k 1 }
    else
      some { s with
        cache := odAssign s.cache k v,
        frequency := odAssign s.frequency k 1 }

/-- A single client operation against a standalone `LRUPolicy` tier, used
to express the recency/eviction-order property over arbitrary operation
sequences. -/
inductive LRUOp where
  | get : String → LRUOp
  | put : String → String → LRUOp
  deriving DecidableEq, Repr

/-- The key an operation touches. -/
def LRUOp.key : LRUOp → String
  | .get k => k
  | .put k _ => k

/-- Run one operation against an `LRUPolicy` (a `get` result value is
discarded; `none` is a raise). -/
def lruStep (s : LRUPolicy) : LRUOp → Option LRUPolicy
  | .get k => some (lruGet s k).2
  | .put k v => lruPut s k v

/-- Run a sequence of operations against an `LRUPolicy`. -/
def lruRun (s : LRUPolicy) (ops : List LRUOp) : Option LRUPolicy :=
  ops.foldlM lruStep s

/-- `j` sits strictly closer to the least-recently-used end than `k` in
the recency order of an LRU store (eviction takes the head first). -/
def lruBefore (c : List (String × String)) (j k : String) : Prop :=
  List.Sublist [j, k] (odKeys c)

/-- A cache level of the multilevel system: one of the two concrete
eviction policies (`code.py` lines 26-69). -/
inductive Level where
  | lru : LRUPolicy → Level
  | lfu : LFUPolicy → Level
  deriving DecidableEq, Repr

/-- Dynamic dispatch of `get` over the policy kind. -/
def Level.get : Level → String → Option String × Level
  | .lru p, k =>
    match lruGet p k with
    | (r, p') => (r, .lru p')
  | .lfu q, k =>
    match lfuGet q k with
    | (r, q') => (r, .lfu q')

/-- Dynamic dispatch of `put` over the policy kind. -/
def Level.put : Level → String → String → Option Level
  | .lru p, k, v => (lruPut p k v).map .lru
  | .lfu q, k, v => (lfuPut q k v).map .lfu

/-- Dynamic dispatch of the inherited `remove`. -/
def Level.remove : Level → String → Level
  | .lru p, k => .lru (lruRemove p k)
  | .lfu q, k => .lfu (lfuRemove q k)

/-- The value stored for a key in a level (pure observation of
`self.cache`). -/
def Level.lookupVal : Level → String → Option String
  | .lru p, k => odLookup p.cache k
  | .lfu q, k => odLookup q.cache k

/-- Keys held by a level, in store iteration order. -/
def Level.keyList : Level → List String
  | .lru p => odKeys p.cache
  | .lfu q => odKeys q.cache

/-- The capacity a level was constructed with. -/
def Level.size : Level → Int
  | .lru p => p.size
  | .lfu q => q.size

/-- Number of entries currently held by a level. -/
def Level.cacheLen : Level → Nat
  | .lru p => p.cache.length
  | .lfu q => q.cache.length

/-- Well-formedness of an `LRUPolicy` state: positive capacity, occupancy
within capacity, and distinct keys (every Python dict has distinct keys;
the occupancy bound holds in every reachable state, see the capacity
invariant below). -/
def LRUPolicy.wf (p : LRUPolicy) : Prop :=
  1 ≤ p.size ∧ (p.cache.length : Int) ≤ p.size ∧ (odKeys p.cache).Nodup

/-- Well-formedness of an `LFUPolicy` state: as for LRU, and the frequency
table holds exactly the stored keys (true in every state reachable through
the orchestrator, whose refresh pass re-inserts immediately after the
internal remove). -/
def LFUPolicy.wf (q : LFUPolicy) : Prop :=
  1 ≤ q.size ∧ (q.cache.length : Int) ≤ q.size ∧ (odKeys q.cache).Nodup ∧
    (odKeys q.frequency).Nodup ∧ (odKeys q.frequency).Perm (odKeys q.cache)

/-- Well-formedness of a level. -/
def Level.wf : Level → Prop
  | .lru p => p.wf
  | .lfu q => q.wf

instance (p : LRUPolicy) : Decidable p.wf :=
  inferInstanceAs (Decidable (_ ∧ _ ∧ _))

instance (q : LFUPolicy) : Decidable q.wf :=
  inferInstanceAs (Decidable (_ ∧ _ ∧ _ ∧ _ ∧ _))

instance : (lv : Level) → Decidable lv.wf
  | .lru p => inferInstanceAs (Decidable p.wf)
  | .lfu q => inferInstanceAs (Decidable q.wf)

/-- `MultilevelCacheSystem`: the ordered tier sequence (`code.py` lines
72-75). The object-level `Lock` is vestigial in the synchronous
semantics. -/
structure MultilevelCacheSystem where
  levels : List Level
  deriving DecidableEq, Repr

/-- `addCacheLevel` (`code.py` lines 77-85): construct the policy for the
kind string, append at the end; an unrecognized kind raises `ValueError`
before any mutation. -/
def addCacheLevel (s : MultilevelCacheSystem) (size : Int) (evictionPolicy : String) :
    Option MultilevelCacheSystem :=
  if evictionPolicy = "LRU" then
    some ⟨s.levels ++ [.lru ⟨size, []⟩]⟩
  else if evictionPolicy = "LFU" then
    some ⟨s.levels ++ [.lfu ⟨size, [], []⟩]⟩
  else
    none

/-- `removeCacheLevel` (`code.py` lines 87-92): pop the tier at `level`
when `0 <= level < len(levels)`, else raise `IndexError`. -/
def removeCacheLevel (s : MultilevelCacheSystem) (level : Int) :
    Option MultilevelCacheSystem :=
  if 0 ≤ level ∧ level < (s.levels.length : Int) then
    some ⟨s.levels.eraseIdx level.toNat⟩
  else
    none

/-- One iteration of `_move_up` (`code.py` lines 111-114) on a single
level of index ≥ 1: test via `get` (whose hit side effects persist), and
on a hit `remove` then `put` the same key into the same level. -/
def refreshLevel (lv : Level) (key value : String) : Option Level :=
  match lv.get key with
  | (some _, lv1) => (lv1.remove key).put key value
  | (none, lv1) => some lv1

/-- `_move_up` over the levels of index ≥ 1, in order; a raise during any
iteration propagates. -/
def moveUpTail (key value : String) : List Level → Option (List Level)
  | [] => some []
  | lv :: rest =>
    match refreshLevel lv key value with
    | none => none
    | some lv' =>
      match moveUpTail key value rest with
      | none => none
      | some rest' => some (lv' :: rest')

/-- The scanning loop of `MultilevelCacheSystem.get` (`code.py` lines
96-102): call each level's `get` in order until a hit; the hit level's
`get` side effects persist, misses leave levels unchanged. -/
def sysGetLoop (key : String) : List Level → Option String × List Level
  | [] => (none, [])
  | lv :: rest =>
    match lv.get key with
    | (some v, lv') => (some v, lv' :: rest)
    | (none, lv') =>
      match sysGetLoop key rest with
      | (r, rest') => (r, lv' :: rest')

/-- `MultilevelCacheSystem.get` (`code.py` lines 94-102): scan for a hit,
then run `_move_up` (which skips index 0) and return the hit value.
`none` models a raise escaping the call; `some (none, _)` is a miss. -/
def sysGet (s : MultilevelCacheSystem) (key : String) :
    Option (Option String × MultilevelCacheSystem) :=
  match sysGetLoop key s.levels with
  | (some v, ls) =>
    match ls with
    | [] => some (some v, ⟨[]⟩)
    | l0 :: rest =>
      match moveUpTail key v rest with
      | none => none
      | some rest' => some (some v, ⟨l0 :: rest'⟩)
  | (none, ls) => some (none, ⟨ls⟩)

/-- `MultilevelCacheSystem.put` (`code.py` lines 104-108):
`levels[0].put` (an `IndexError` on an empty hierarchy), then `_move_up`
over the levels of index ≥ 1. -/
def sysPut (s : MultilevelCacheSystem) (key value : String) :
    Option MultilevelCacheSystem :=
  match s.levels with
  | [] => none
  | l0 :: rest =>
    match l0.put key value with
    | none => none
    | some l0' =>
      match moveUpTail key value rest with
      | none => none
      | some rest' => some ⟨l0' :: rest'⟩

/-! ### Basic lemmas about the ordered-dict primitives -/

@[simp]
theorem odLookup_nil {α : Type} (k : String) : odLookup ([] : List (String × α)) k = none := rfl

@[simp]
theorem odKeys_nil {α : Type} : odKeys ([] : List (String × α)) = [] := rfl

@[simp]
theorem odKeys_cons {α : Type} (p : String × α) (l : List (String × α)) :
    odKeys (p :: l) = p.1 :: odKeys l := rfl

@[simp]
theorem odKeys_append {α : Type} (l1 l2 : List (String × α)) :
    odKeys (l1 ++ l2) = odKeys l1 ++ odKeys l2 := by
  simp [odKeys]

theorem odLookup_eq_none_iff {α : Type} (l : List (String × α)) (k : String) :
    odLookup l k = none ↔ k ∉ odKeys l := by
  induction l with
  | nil => simp
  | cons p rest ih =>
    obtain ⟨k', v'⟩ := p
    by_cases h : k' = k
    · simp [odLookup, h]
    · simp [odLookup, h, ih, Ne.symm h]

theorem odLookup_isSome_iff {α : Type} (l : List (String × α)) (k : String) :
    (odLookup l k).isSome = true ↔ k ∈ odKeys l := by
  induction l with
  | nil => simp
  | cons p rest ih =>
    obtain ⟨k', v'⟩ := p
    by_cases h : k' = k
    · simp [odLookup, h]
    · simp [odLookup, h, ih, Ne.symm h]

theorem mem_odKeys_of_odLookup {α : Type} {l : List (String × α)} {k : String} {v : α}
    (h : odLookup l k = some v) : k ∈ odKeys l :=
  (odLookup_isSome_iff l k).mp (by rw [h]; rfl)

theorem odLookup_odAssign_self {α : Type} (l : List (String × α)) (k : String) (v : α) :
    odLookup (odAssign l k v) k = some v := by
  induction l with
  | nil => simp [odAssign, odLookup]
  | cons p rest ih =>
    obtain ⟨k', v'⟩ := p
    by_cases h : k' = k <;> simp [odAssign, odLookup, h, ih]

theorem odLookup_odAssign_ne {α : Type} (l : List (String × α)) {j k : String} (v : α)
    (h : j ≠ k) : odLookup (odAssign l k v) j = odLookup l j := by
  have hkj : k ≠ j := Ne.symm h
  induction l with
  | nil => simp [odAssign, odLookup, hkj]
  | cons p rest ih =>
    obtain ⟨k', v'⟩ := p
    by_cases hk : k' = k
    · have hj : k' ≠ j := by rw [hk]; exact hkj
      simp [odAssign, odLookup, hk, hkj, hj]
    · simp [odAssign, odLookup, hk, ih]

theorem odAssign_of_not_mem {α : Type} {l : List (String × α)} {k : String} (v : α)
    (h : k ∉ odKeys l) : odAssign l k v = l ++ [(k, v)] := by
  induction l with
  | nil => simp [odAssign]
  | cons p rest ih =>
    obtain ⟨k', v'⟩ := p
    simp only [odKeys_cons, List.mem_cons, not_or] at h
    simp [odAssign, Ne.symm h.1, ih h.2]

theorem odKeys_odAssign_of_mem {α : Type} {l : List (String × α)} {k : String} (v : α)
    (h : k ∈ odKeys l) : odKeys (odAssign l k v) = odKeys l := by
  induction l with
  | nil => simp at h
  | cons p rest ih =>
    obtain ⟨k', v'⟩ := p
    by_cases hk : k' = k
    · simp [odAssign, hk]
    · simp only [odKeys_cons, List.mem_cons, eq_comm (a := k)] at h
      simp [odAssign, hk, ih (h.resolve_left hk)]

theorem odAssign_length {α : Type} (l : List (String × α)) (k : String) (v : α) :
    (odAssign l k v).length = if k ∈ odKeys l then l.length else l.length + 1 := by
  induction l with
  | nil => simp [odAssign]
  | cons p rest ih =>
    obtain ⟨k', v'⟩ := p
    by_cases hk : k' = k
    · simp [odAssign, hk]
    · simp only [odAssign, if_neg hk, List.length_cons, ih, odKeys_cons, List.mem_cons,
        eq_comm (a := k), or_iff_right hk]
      split <;> rfl

theorem odErase_of_not_mem {α : Type} {l : List (String × α)} {k : String}
    (h : k ∉ odKeys l) : odErase l k = l := by
  induction l with
  | nil => rfl
  | cons p rest ih =>
    obtain ⟨k', v'⟩ := p
    simp only [odKeys_cons, List.mem_cons, not_or] at h
    simp [odErase, Ne.symm h.1, ih h.2]

theorem odKeys_odErase {α : Type} (l : List (String × α)) (k : String) :
    odKeys (odErase l k) = (odKeys l).erase k := by
  induction l with
  | nil => rfl
  | cons p rest ih =>
    obtain ⟨k', v'⟩ := p
    by_cases hk : k' = k
    · simp [odErase, hk, List.erase_cons_head]
    · simp [odErase, hk, List.erase_cons_tail, ih]

theorem odErase_length_of_mem {α : Type} {l : List (String × α)} {k : String}
    (h : k ∈ odKeys l) : (odErase l k).length + 1 = l.length := by
  induction l with
  | nil => simp at h
  | cons p rest ih =>
    obtain ⟨k', v'⟩ := p
    by_cases hk : k' = k
    · simp [odErase, hk]
    · simp only [odKeys_cons, List.mem_cons, eq_comm (a := k)] at h
      simp [odErase, hk, ih (h.resolve_left hk)]

theorem odLookup_odErase_ne {α : Type} (l : List (String × α)) {j k : String}
    (h : j ≠ k) : odLookup (odErase l k) j = odLookup l j := by
  have hkj : k ≠ j := Ne.symm h
  induction l with
  | nil => rfl
  | cons p rest ih =>
    obtain ⟨k', v'⟩ := p
    by_cases hk : k' = k
    · simp [odErase, odLookup, hk, hkj]
    · simp [odErase, odLookup, hk, ih]

theorem odLookup_odErase_self {α : Type} {l : List (String × α)} {k : String}
    (hnd : (odKeys l).Nodup) : odLookup (odErase l k) k = none := by
  rw [odLookup_eq_none_iff, odKeys_odErase]
  exact hnd.not_mem_erase

theorem odLookup_append_of_not_mem {α : Type} {l1 : List (String × α)}
    (l2 : List (String × α)) {k : String} (h : k ∉ odKeys l1) :
    odLookup (l1 ++ l2) k = odLookup l2 k := by
  induction l1 with
  | nil => simp
  | cons p rest ih =>
    obtain ⟨k', v'⟩ := p
    simp only [odKeys_cons, List.mem_cons, not_or] at h
    simp [odLookup, Ne.symm h.1, ih h.2]

theorem odErase_append_of_not_mem {α : Type} {l1 : List (String × α)}
    (l2 : List (String × α)) {k : String} (h : k ∉ odKeys l1) :
    odErase (l1 ++ l2) k = l1 ++ odErase l2 k := by
  induction l1 with
  | nil => simp
  | cons p rest ih =>
    obtain ⟨k', v'⟩ := p
    simp only [odKeys_cons, List.mem_cons, not_or] at h
    simp [odErase, Ne.symm h.1, ih h.2]

theorem odAssign_append_of_not_mem {α : Type} {l1 : List (String × α)}
    (l2 : List (String × α)) {k : String} (v : α) (h : k ∉ odKeys l1) :
    odAssign (l1 ++ l2) k v = l1 ++ odAssign l2 k v := by
  induction l1 with
  | nil => simp
  | cons p rest ih =>
    obtain ⟨k', v'⟩ := p
    simp only [odKeys_cons, List.mem_cons, not_or] at h
    simp [odAssign, Ne.symm h.1, ih h.2]

theorem odLookup_of_mem_pair {α : Type} {l : List (String × α)} {k : String} {v : α}
    (hnd : (odKeys l).Nodup) (h : (k, v) ∈ l) : odLookup l k = some v := by
  induction l with
  | nil => simp at h
  | cons p rest ih =>
    obtain ⟨k', v'⟩ := p
    simp only [odKeys_cons, List.nodup_cons] at hnd
    rcases List.mem_cons.mp h with h1 | h1
    · obtain ⟨rfl, rfl⟩ := Prod.mk.injEq .. ▸ h1
      simp [odLookup]
    · have hk : k' ≠ k := by
        rintro rfl
        exact hnd.1 (List.mem_map_of_mem Prod.fst h1)
      simp [odLookup, hk, ih hnd.2 h1]

theorem exists_pair_of_mem_odKeys {α : Type} {l : List (String × α)} {k : String}
    (h : k ∈ odKeys l) : ∃ v, (k, v) ∈ l := by
  obtain ⟨⟨k', v⟩, hm, rfl⟩ := List.mem_map.mp h
  exact ⟨v, hm⟩

/-! ### Facts about successful puts -/

theorem lruPut_lookup_self {p p' : LRUPolicy} {k v : String}
    (h : lruPut p k v = some p') : odLookup p'.cache k = some v := by
  unfold lruPut at h
  split at h
  · cases Option.some.inj h
    exact odLookup_odAssign_self ..
  · split at h
    · split at h
      · exact Option.noConfusion h
      · cases Option.some.inj h
        exact odLookup_odAssign_self ..
    · cases Option.some.inj h
      exact odLookup_odAssign_self ..

theorem lfuPut_lookup_self {q q' : LFUPolicy} {k v : String}
    (h : lfuPut q k v = some q') : odLookup q'.cache k = some v := by
  unfold lfuPut at h
  split at h
  · cases Option.some.inj h
    exact odLookup_odAssign_self ..
  · split at h
    · split at h
      · exact Option.noConfusion h
      · split at h
        · exact Option.noConfusion h
        · cases Option.some.inj h
          exact odLookup_odAssign_self ..
    · cases Option.some.inj h
      exact odLookup_odAssign_self ..

theorem Level.put_lookupVal {lv lv' : Level} {k v : String}
    (h : lv.put k v = some lv') : lv'.lookupVal k = some v := by
  cases lv with
  | lru p =>
    rw [Level.put, Option.map_eq_some'] at h
    obtain ⟨p', hp, rfl⟩ := h
    exact lruPut_lookup_self hp
  | lfu q =>
    rw [Level.put, Option.map_eq_some'] at h
    obtain ⟨q', hq, rfl⟩ := h
    exact lfuPut_lookup_self hq

/-! ### Claim theorems -/

/-- C1: every successful `put` on a FrequencyTier (`LFUPolicy.put`) leaves
that key's access count at exactly 1, on both the insert-new-key path and
the update-existing-key path — the final `frequency[key] = 1` overwrites
the increment of the update branch. -/
theorem lfuPut_resets_access_count (s : LFUPolicy) (k v : String) (s' : LFUPolicy)
    (h : lfuPut s k v = some s') : odLookup s'.frequency k = some 1 := by
  unfold lfuPut at h
  split at h
  · cases Option.some.inj h
    exact odLookup_odAssign_self ..
  · split at h
    · split at h
      · exact Option.noConfusion h
      · split at h
        · exact Option.noConfusion h
        · cases Option.some.inj h
          exact odLookup_odAssign_self ..
    · cases Option.some.inj h
      exact odLookup_odAssign_self ..

/-- Witness for C1: updating a key that had access count 7 still leaves it
at exactly 1. -/
theorem lfuPut_resets_access_count_witness :
    odLookup (LFUPolicy.mk 2 [("a", "y")] [("a", 1)]).frequency "a" = some 1 :=
  lfuPut_resets_access_count ⟨2, [("a", "x")], [("a", 7)]⟩ "a" "y"
    ⟨2, [("a", "y")], [("a", 1)]⟩ (by decide)

/-- C5: after a successful `MultilevelCacheSystem.put(key, value)` on a
hierarchy with at least one tier whose tier 0 has capacity ≥ 1, tier 0
contains `key` mapped to `value`, whatever the prior tier contents. -/
theorem sysPut_writes_tier0 (s : MultilevelCacheSystem) (k v : String) (l0 : Level)
    (rest : List Level) (s' : MultilevelCacheSystem) (hs : s.levels = l0 :: rest)
    (hcap : 1 ≤ l0.size) (h : sysPut s k v = some s') :
    ∃ l0' rest', s'.levels = l0' :: rest' ∧ l0'.lookupVal k = some v := by
  unfold sysPut at h
  simp only [hs] at h
  split at h
  · exact Option.noConfusion h
  · rename_i l0' hp
    split at h
    · exact Option.noConfusion h
    · rename_i rest' hm
      cases Option.some.inj h
      exact ⟨l0', rest', rfl, Level.put_lookupVal hp⟩

/-- Witness for C5: putting over a hierarchy whose tier 0 is a full
RecencyTier and whose tier 1 already holds the key. -/
theorem sysPut_writes_tier0_witness :
    ∃ l0' rest',
      (MultilevelCacheSystem.mk
          [.lru ⟨1, [("a", "new")]⟩,
           .lfu ⟨2, [("a", "new")], [("a", 1)]⟩]).levels = l0' :: rest' ∧
        l0'.lookupVal "a" = some "new" :=
  sysPut_writes_tier0
    ⟨[.lru ⟨1, [("b", "B")]⟩, .lfu ⟨2, [("a", "old")], [("a", 5)]⟩]⟩ "a" "new"
    (.lru ⟨1, [("b", "B")]⟩) [.lfu ⟨2, [("a", "old")], [("a", 5)]⟩]
    ⟨[.lru ⟨1, [("a", "new")]⟩, .lfu ⟨2, [("a", "new")], [("a", 1)]⟩]⟩
    rfl (by decide) (by decide)

/-- C6: `put` against a hierarchy with zero tiers raises synchronously
(`levels[0]` fails before any mutation), and a tier constructed with
capacity ≤ 0 raises on the first insertion of a new key — the eviction
attempt against the empty store fails (`popitem` on an empty dict for a
RecencyTier, `min` of an empty sequence for a FrequencyTier) before the
store is written, so its contents stay empty. -/
theorem zero_tiers_and_nonpositive_capacity_fail (k v : String) (sz : Int)
    (hsz : sz ≤ 0) :
    sysPut ⟨[]⟩ k v = none ∧
      lruPut ⟨sz, []⟩ k v = none ∧ lfuPut ⟨sz, [], []⟩ k v = none := by
  refine ⟨rfl, ?_, ?_⟩
  · unfold lruPut
    have h0 : ((([] : List (String × String)).length : Int) ≥ sz) := by
      simpa using hsz
    simp [odLookup, h0, hsz]
  · unfold lfuPut
    have h0 : ((([] : List (String × String)).length : Int) ≥ sz) := by
      simpa using hsz
    simp [odLookup, h0, hsz, pyMinBy]

/-- Witness for C6 at capacity 0. -/
theorem zero_tiers_and_nonpositive_capacity_fail_witness :
    sysPut ⟨[]⟩ "a" "x" = none ∧
      lruPut ⟨0, []⟩ "a" "x" = none ∧ lfuPut ⟨0, [], []⟩ "a" "x" = none :=
  zero_tiers_and_nonpositive_capacity_fail "a" "x" 0 (by decide)

/-- Counterexample for C7: on a FrequencyTier, `remove` (inherited from
the policy base class) deletes only the (key, value) pair; the access
count — the tier-private metadata the claim says is deleted with it —
survives in the frequency table. -/
theorem lfuRemove_keeps_access_count_counterexample :
    ¬ (odLookup (lfuRemove ⟨2, [("a", "x")], [("a", 3)]⟩ "a").frequency "a" = none) := by
  decide

/-- C7 (amended): `remove(key)` deletes the (key, value) pair when the key
is present and is a no-op when it is absent, for both tier kinds; for a
RecencyTier the recency position disappears with the pair, but for a
FrequencyTier the access count is retained in the frequency table. -/
theorem remove_deletes_pair_only (k j : String) :
    (∀ p : LRUPolicy, odLookup p.cache k = none → lruRemove p k = p) ∧
    (∀ q : LFUPolicy, odLookup q.cache k = none → lfuRemove q k = q) ∧
    (∀ p : LRUPolicy, (odKeys p.cache).Nodup →
      odLookup (lruRemove p k).cache k = none) ∧
    (∀ q : LFUPolicy, (odKeys q.cache).Nodup →
      odLookup (lfuRemove q k).cache k = none) ∧
    (j ≠ k → ∀ p : LRUPolicy, odLookup (lruRemove p k).cache j = odLookup p.cache j) ∧
    (j ≠ k → ∀ q : LFUPolicy, odLookup (lfuRemove q k).cache j = odLookup q.cache j) ∧
    (∀ q : LFUPolicy, (lfuRemove q k).frequency = q.frequency) := by
  have habs : ∀ c : List (String × String), odLookup c k = none → evRemove c k = c := by
    intro c hc
    unfold evRemove
    rw [hc]
    rfl
  have hdel : ∀ c : List (String × String), (odKeys c).Nodup →
      odLookup (evRemove c k) k = none := by
    intro c hc
    unfold evRemove
    split
    · exact odLookup_odErase_self hc
    · rename_i hn
      exact Option.not_isSome_iff_eq_none.mp hn
  have hne : j ≠ k → ∀ c : List (String × String),
      odLookup (evRemove c k) j = odLookup c j := by
    intro hjk c
    unfold evRemove
    split
    · exact odLookup_odErase_ne c hjk
    · rfl
  refine ⟨fun p hp => ?_, fun q hq => ?_, fun p hp => hdel _ hp, fun q hq => hdel _ hq,
    fun hjk p => hne hjk _, fun hjk q => hne hjk _, fun q => rfl⟩
  · unfold lruRemove
    rw [habs _ hp]
  · unfold lfuRemove
    rw [habs _ hq]

/-- Witness for C7 (amended) at concrete tiers. -/
theorem remove_deletes_pair_only_witness :
    lruRemove ⟨2, []⟩ "a" = ⟨2, []⟩ ∧
      odLookup (lruRemove ⟨2, [("a", "x"), ("b", "y")]⟩ "a").cache "a" = none ∧
      odLookup (lfuRemove ⟨2, [("a", "x")], [("a", 3)]⟩ "a").cache "b" =
        odLookup (⟨2, [("a", "x")], [("a", 3)]⟩ : LFUPolicy).cache "b" ∧
      (lfuRemove ⟨2, [("a", "x")], [("a", 3)]⟩ "a").frequency = [("a", 3)] :=
  ⟨(remove_deletes_pair_only "a" "b").1 ⟨2, []⟩ (by decide),
   (remove_deletes_pair_only "a" "b").2.2.1 ⟨2, [("a", "x"), ("b", "y")]⟩ (by decide),
   (remove_deletes_pair_only "a" "b").2.2.2.2.2.1 (by decide) ⟨2, [("a", "x")], [("a", 3)]⟩,
   (remove_deletes_pair_only "a" "b").2.2.2.2.2.2 ⟨2, [("a", "x")], [("a", 3)]⟩⟩

/-- C8: `addCacheLevel` appends the new tier at the end of the sequence
for the two recognized policy kinds and raises a configuration error —
leaving the sequence unchanged — for any other kind; `removeCacheLevel`
raises a range error exactly when the index is outside `[0, tierCount)`
and otherwise removes the tier at the index, shifting every later tier
down by exactly one. -/
theorem tier_management_spec :
    (∀ (s : MultilevelCacheSystem) (sz : Int),
        addCacheLevel s sz "LRU" = some ⟨s.levels ++ [.lru ⟨sz, []⟩]⟩) ∧
    (∀ (s : MultilevelCacheSystem) (sz : Int),
        addCacheLevel s sz "LFU" = some ⟨s.levels ++ [.lfu ⟨sz, [], []⟩]⟩) ∧
    (∀ (s : MultilevelCacheSystem) (sz : Int) (p : String),
        p ≠ "LRU" → p ≠ "LFU" → addCacheLevel s sz p = none) ∧
    (∀ (s : MultilevelCacheSystem) (i : Int),
        removeCacheLevel s i = none ↔ ¬(0 ≤ i ∧ i < (s.levels.length : Int))) ∧
    (∀ (s : MultilevelCacheSystem) (i : Int), 0 ≤ i → i < (s.levels.length : Int) →
        removeCacheLevel s i = some ⟨s.levels.eraseIdx i.toNat⟩ ∧
        (s.levels.eraseIdx i.toNat).length + 1 = s.levels.length ∧
        (∀ j : Nat, j < i.toNat → (s.levels.eraseIdx i.toNat)[j]? = s.levels[j]?) ∧
        (∀ j : Nat, i.toNat ≤ j → (s.levels.eraseIdx i.toNat)[j]? = s.levels[j + 1]?)) := by
  refine ⟨fun s sz => by simp [addCacheLevel],
    fun s sz => by simp [addCacheLevel],
    fun s sz p h1 h2 => by simp [addCacheLevel, h1, h2],
    fun s i => by by_cases h : 0 ≤ i ∧ i < (s.levels.length : Int) <;>
      simp [removeCacheLevel, h],
    fun s i h1 h2 => ?_⟩
  have hlt : i.toNat < s.levels.length := by omega
  refine ⟨by simp [removeCacheLevel, h1, h2], ?_,
    fun j hj => List.getElem?_eraseIdx_of_lt _ _ _ hj,
    fun j hj => List.getElem?_eraseIdx_of_ge _ _ _ hj⟩
  rw [List.length_eraseIdx_of_lt hlt]
  omega

/-- Witness for C8: an unrecognized kind fails, a recognized kind appends
at the end, out-of-range removal fails, in-range removal shifts the later
tier down. -/
theorem tier_management_spec_witness :
    addCacheLevel ⟨[.lfu ⟨2, [], []⟩]⟩ 3 "LRU" =
      some ⟨[.lfu ⟨2, [], []⟩] ++ [.lru ⟨3, []⟩]⟩ ∧
    addCacheLevel ⟨[]⟩ 2 "FIFO" = none ∧
    removeCacheLevel ⟨[.lru ⟨1, []⟩]⟩ 1 = none ∧
    removeCacheLevel ⟨[.lru ⟨1, []⟩, .lfu ⟨2, [], []⟩]⟩ 0 =
      some ⟨[.lru ⟨1, []⟩, .lfu ⟨2, [], []⟩].eraseIdx ((0 : Int).toNat)⟩ ∧
    ([(.lru ⟨1, []⟩ : Level), .lfu ⟨2, [], []⟩].eraseIdx ((0 : Int).toNat))[0]? =
      [(.lru ⟨1, []⟩ : Level), .lfu ⟨2, [], []⟩][1]? :=
  ⟨tier_management_spec.1 ⟨[.lfu ⟨2, [], []⟩]⟩ 3,
   tier_management_spec.2.2.1 ⟨[]⟩ 2 "FIFO" (by decide) (by decide),
   (tier_management_spec.2.2.2.1 ⟨[.lru ⟨1, []⟩]⟩ 1).mpr (by decide),
   (tier_management_spec.2.2.2.2 ⟨[.lru ⟨1, []⟩, .lfu ⟨2, [], []⟩]⟩ 0 (by decide)
      (by decide)).1,
   (tier_management_spec.2.2.2.2 ⟨[.lru ⟨1, []⟩, .lfu ⟨2, [], []⟩]⟩ 0 (by decide)
      (by decide)).2.2.2 0 (by decide)⟩

/-! ### Length bookkeeping for the capacity invariant -/

theorem lruGet_cache_length (p : LRUPolicy) (k : String) :
    ((lruGet p k).2).cache.length = p.cache.length ∧ ((lruGet p k).2).size = p.size := by
  unfold lruGet
  split
  · rename_i v hv
    refine ⟨?_, rfl⟩
    have h2 := odErase_length_of_mem (mem_odKeys_of_odLookup hv)
    simp only [List.length_append, List.length_singleton]
    omega
  · exact ⟨rfl, rfl⟩

theorem lfuGet_cache_eq (q : LFUPolicy) (k : String) :
    ((lfuGet q k).2).cache = q.cache ∧ ((lfuGet q k).2).size = q.size := by
  unfold lfuGet
  split <;> exact ⟨rfl, rfl⟩

theorem lruPut_length_le {p p' : LRUPolicy} {k v : String} (hsz : 1 ≤ p.size)
    (hlen : (p.cache.length : Int) ≤ p.size) (h : lruPut p k v = some p') :
    (p'.cache.length : Int) ≤ p.size ∧ p'.size = p.size := by
  unfold lruPut at h
  split at h
  · rename_i v0 hv
    cases Option.some.inj h
    refine ⟨?_, rfl⟩
    have hk : k ∈ odKeys (odErase p.cache k ++ [(k, v0)]) := by simp
    have h2 := odErase_length_of_mem (mem_odKeys_of_odLookup hv)
    rw [odAssign_length, if_pos hk]
    simp only [List.length_append, List.length_singleton]
    omega
  · rename_i hv
    rw [odLookup_eq_none_iff] at hv
    split at h
    · rename_i hge
      split at h
      · exact Option.noConfusion h
      · rename_i hd rest hcache
        cases Option.some.inj h
        refine ⟨?_, rfl⟩
        have hk : k ∉ odKeys rest := by
          rw [hcache] at hv
          simp only [odKeys_cons, List.mem_cons, not_or] at hv
          exact hv.2
        have h2 : p.cache.length = rest.length + 1 := by rw [hcache]; rfl
        rw [odAssign_length, if_neg hk]
        omega
    · rename_i hge
      cases Option.some.inj h
      refine ⟨?_, rfl⟩
      rw [odAssign_length, if_neg hv]
      omega

theorem lfuPut_length_le {q q' : LFUPolicy} {k v : String} (hsz : 1 ≤ q.size)
    (hlen : (q.cache.length : Int) ≤ q.size) (h : lfuPut q k v = some q') :
    (q'.cache.length : Int) ≤ q.size ∧ q'.size = q.size := by
  unfold lfuPut at h
  split at h
  · rename_i w hv
    cases Option.some.inj h
    refine ⟨?_, rfl⟩
    have hk : k ∈ odKeys q.cache := mem_odKeys_of_odLookup hv
    rw [odAssign_length, odKeys_odAssign_of_mem _ hk, if_pos hk,
      odAssign_length, if_pos hk]
    exact hlen
  · rename_i hv
    rw [odLookup_eq_none_iff] at hv
    split at h
    · rename_i hge
      split at h
      · exact Option.noConfusion h
      · rename_i lfuKey hmin
        split at h
        · exact Option.noConfusion h
        · rename_i wc hpop
          cases Option.some.inj h
          refine ⟨?_, rfl⟩
          unfold odPop at hpop
          split at hpop
          · rename_i w0 hw0
            cases Option.some.inj hpop
            have hmem := mem_odKeys_of_odLookup hw0
            have h2 := odErase_length_of_mem hmem
            have hk : k ∉ odKeys (odErase q.cache lfuKey) := by
              rw [odKeys_odErase]
              intro hmem2
              exact hv (List.mem_of_mem_erase hmem2)
            simp only [odAssign_length, if_neg hk]
            omega
          · exact Option.noConfusion hpop
    · rename_i hge
      cases Option.some.inj h
      refine ⟨?_, rfl⟩
      rw [odAssign_length, if_neg hv]
      omega

theorem evRemove_length_le (c : List (String × String)) (k : String) :
    (evRemove c k).length ≤ c.length := by
  unfold evRemove
  split
  · rename_i hk
    have h2 := odErase_length_of_mem ((odLookup_isSome_iff _ _).mp hk)
    omega
  · exact Nat.le_refl _

/-- C9: for a tier of either kind with capacity N ≥ 1 holding at most N
entries, every `get`, successful `put`, and `remove` again leaves at most
N entries (a `put` of a new key at capacity evicts exactly one entry
before inserting), and leaves the capacity itself unchanged — so the
occupancy bound is an invariant from the empty tier on. -/
theorem tier_capacity_bound (lv : Level) (hsz : 1 ≤ lv.size)
    (hlen : (lv.cacheLen : Int) ≤ lv.size) :
    (∀ k, (((lv.get k).2.cacheLen : Int) ≤ lv.size ∧ (lv.get k).2.size = lv.size)) ∧
    (∀ k v lv', lv.put k v = some lv' →
        ((lv'.cacheLen : Int) ≤ lv.size ∧ lv'.size = lv.size)) ∧
    (∀ k, (((lv.remove k).cacheLen : Int) ≤ lv.size ∧ (lv.remove k).size = lv.size)) := by
  cases lv with
  | lru p =>
    refine ⟨fun k => ?_, fun k v lv' h => ?_, fun k => ?_⟩
    · rcases hg : lruGet p k with ⟨r, p'⟩
      have h2 := lruGet_cache_length p k
      rw [hg] at h2
      simp only [Level.get, hg, Level.cacheLen, Level.size] at *
      rw [h2.1, h2.2]
      exact ⟨hlen, rfl⟩
    · rw [Level.put, Option.map_eq_some'] at h
      obtain ⟨p', hp, rfl⟩ := h
      exact lruPut_length_le hsz hlen hp
    · refine ⟨?_, rfl⟩
      simp only [Level.remove, lruRemove, Level.cacheLen, Level.size]
      have h2 := evRemove_length_le p.cache k
      simp only [Level.cacheLen, Level.size] at hlen
      omega
  | lfu q =>
    refine ⟨fun k => ?_, fun k v lv' h => ?_, fun k => ?_⟩
    · rcases hg : lfuGet q k with ⟨r, q'⟩
      have h2 := lfuGet_cache_eq q k
      rw [hg] at h2
      simp only [Level.get, hg, Level.cacheLen, Level.size] at *
      rw [h2.1, h2.2]
      exact ⟨hlen, rfl⟩
    · rw [Level.put, Option.map_eq_some'] at h
      obtain ⟨q', hq, rfl⟩ := h
      exact lfuPut_length_le hsz hlen hq
    · refine ⟨?_, rfl⟩
      simp only [Level.remove, lfuRemove, Level.cacheLen, Level.size]
      have h2 := evRemove_length_le q.cache k
      simp only [Level.cacheLen, Level.size] at hlen
      omega

/-- Witness for C9 on a full RecencyTier of capacity 2. -/
theorem tier_capacity_bound_witness :
    (((Level.lru ⟨2, [("a", "1"), ("b", "2")]⟩).get "a").2.cacheLen : Int) ≤
        (Level.lru ⟨2, [("a", "1"), ("b", "2")]⟩).size ∧
      (((Level.lru ⟨2, [("a", "1"), ("b", "2")]⟩).remove "b").cacheLen : Int) ≤
        (Level.lru ⟨2, [("a", "1"), ("b", "2")]⟩).size :=
  ⟨((tier_capacity_bound (.lru ⟨2, [("a", "1"), ("b", "2")]⟩) (by decide)
      (by decide)).1 "a").1,
   ((tier_capacity_bound (.lru ⟨2, [("a", "1"), ("b", "2")]⟩) (by decide)
      (by decide)).2.2 "b").1⟩

/-! ### Characterization of the Python min scan -/

theorem pyMinScan_spec (rest : List (String × Nat)) (bk : String) (bc : Nat) :
    (pyMinScan bk bc rest = bk ∧ ∀ q ∈ rest, bc ≤ q.2) ∨
    (∃ l1 e c l2, rest = l1 ++ (e, c) :: l2 ∧ pyMinScan bk bc rest = e ∧ c < bc ∧
      (∀ q ∈ l1, c < q.2) ∧ (∀ q ∈ l2, c ≤ q.2)) := by
  induction rest generalizing bk bc with
  | nil => exact Or.inl ⟨rfl, by simp⟩
  | cons p rest ih =>
    obtain ⟨k1, c1⟩ := p
    by_cases h1 : c1 < bc
    · right
      rcases ih k1 c1 with ⟨heq, hall⟩ | ⟨l1, e, c, l2, hsplit, heq, hlt, hl1, hl2⟩
      · exact ⟨[], k1, c1, rest, by simp, by simp [pyMinScan, h1, heq], h1, by simp, hall⟩
      · refine ⟨(k1, c1) :: l1, e, c, l2, by rw [hsplit]; rfl, by simp [pyMinScan, h1, heq],
          Nat.lt_trans hlt h1, ?_, hl2⟩
        intro q hq
        rcases List.mem_cons.mp hq with rfl | hq
        · exact hlt
        · exact hl1 q hq
    · rcases ih bk bc with ⟨heq, hall⟩ | ⟨l1, e, c, l2, hsplit, heq, hlt, hl1, hl2⟩
      · refine Or.inl ⟨by simp [pyMinScan, h1, heq], ?_⟩
        intro q hq
        rcases List.mem_cons.mp hq with rfl | hq
        · exact Nat.le_of_not_lt h1
        · exact hall q hq
      · right
        refine ⟨(k1, c1) :: l1, e, c, l2, by rw [hsplit]; rfl, by simp [pyMinScan, h1, heq],
          hlt, ?_, hl2⟩
        intro q hq
        rcases List.mem_cons.mp hq with rfl | hq
        · exact Nat.lt_of_lt_of_le hlt (Nat.le_of_not_lt h1)
        · exact hl1 q hq

theorem pyMinBy_spec (l : List (String × Nat)) (hne : l ≠ []) :
    ∃ l1 e c l2, l = l1 ++ (e, c) :: l2 ∧ pyMinBy l = some e ∧
      (∀ q ∈ l1, c < q.2) ∧ (∀ q ∈ l2, c ≤ q.2) := by
  match l, hne with
  | (k0, c0) :: rest, _ =>
    rcases pyMinScan_spec rest k0 c0 with ⟨heq, hall⟩ |
      ⟨l1, e, c, l2, hsplit, heq, hlt, hl1, hl2⟩
    · exact ⟨[], k0, c0, rest, rfl, by simp [pyMinBy, heq], by simp, hall⟩
    · refine ⟨(k0, c0) :: l1, e, c, l2, by rw [hsplit]; rfl, by simp [pyMinBy, heq], ?_, hl2⟩
      intro q hq
      rcases List.mem_cons.mp hq with rfl | hq
      · exact hlt
      · exact hl1 q hq

/-- C3: on a full FrequencyTier, a `put` of a fresh key evicts exactly one
key whose access count is minimal among the held keys — the first key in
the frequency table's iteration order among those tied at the minimum —
removing it from both the value store and the frequency table and keeping
every other key. -/
theorem lfuPut_evicts_min_count (s : LFUPolicy) (key v : String)
    (hsz : 1 ≤ s.size) (hfull : (s.cache.length : Int) = s.size)
    (hndc : (odKeys s.cache).Nodup) (hndf : (odKeys s.frequency).Nodup)
    (hperm : (odKeys s.frequency).Perm (odKeys s.cache))
    (hnew : odLookup s.cache key = none) :
    ∃ e l1 c l2,
      lfuPut s key v = some
        ⟨s.size, odAssign (odErase s.cache e) key v,
          odAssign (odErase s.frequency e) key 1⟩ ∧
      e ∈ odKeys s.cache ∧
      s.frequency = l1 ++ (e, c) :: l2 ∧
      (∀ q ∈ l1, c < q.2) ∧ (∀ q ∈ l2, c ≤ q.2) ∧
      (∀ x ∈ odKeys s.cache, c ≤ ctrGet s.frequency x) ∧
      odLookup (odAssign (odErase s.cache e) key v) e = none ∧
      odLookup (odAssign (odErase s.frequency e) key 1) e = none ∧
      (∀ x ∈ odKeys s.cache, x ≠ e → x ∈ odKeys (odAssign (odErase s.cache e) key v)) := by
  have hcne : s.cache ≠ [] := by
    intro hc
    rw [hc] at hfull
    simp at hfull
    omega
  have hfne : s.frequency ≠ [] := by
    intro hf
    have h2 : odKeys s.cache = [] := (List.perm_nil.mp (hf ▸ hperm).symm).symm ▸ rfl
    exact hcne (List.map_eq_nil.mp h2)
  obtain ⟨l1, e, c, l2, hsplit, hmin, hl1, hl2⟩ := pyMinBy_spec s.frequency hfne
  have hef : e ∈ odKeys s.frequency := by
    rw [hsplit]
    simp
  have hec : e ∈ odKeys s.cache := hperm.mem_iff.mp hef
  have hkey_e : key ≠ e := by
    intro h
    rw [← h] at hec
    exact (odLookup_eq_none_iff _ _).mp hnew hec
  obtain ⟨w, hw⟩ := exists_pair_of_mem_odKeys hec
  have hwl : odLookup s.cache e = some w := odLookup_of_mem_pair hndc hw
  have hge : (s.cache.length : Int) ≥ s.size := le_of_eq hfull.symm
  have hput : lfuPut s key v = some
      ⟨s.size, odAssign (odErase s.cache e) key v,
        odAssign (odErase s.frequency e) key 1⟩ := by
    unfold lfuPut
    split
    · rename_i w2 hw2
      rw [hnew] at hw2
      exact Option.noConfusion hw2
    · rw [if_pos hge]
      split
      · rename_i hmin2
        rw [hmin2] at hmin
        exact Option.noConfusion hmin
      · rename_i lfuKey2 hmin2
        rw [hmin2] at hmin
        cases Option.some.inj hmin
        unfold odPop
        rw [hwl]
  refine ⟨e, l1, c, l2, hput, hec, hsplit, hl1, hl2, ?_, ?_, ?_, ?_⟩
  · intro x hx
    have hxf : x ∈ odKeys s.frequency := hperm.mem_iff.mpr hx
    obtain ⟨cx, hcx⟩ := exists_pair_of_mem_odKeys hxf
    have hlx : odLookup s.frequency x = some cx := odLookup_of_mem_pair hndf hcx
    have hctr : ctrGet s.frequency x = cx := by
      unfold ctrGet
      rw [hlx]
      rfl
    rw [hctr]
    rw [hsplit] at hcx
    rcases List.mem_append.mp hcx with hmem | hmem
    · exact Nat.le_of_lt (hl1 _ hmem)
    · rcases List.mem_cons.mp hmem with heq | hmem
      · cases heq
        exact Nat.le_refl _
      · exact hl2 _ hmem
  · rw [odLookup_odAssign_ne _ _ (Ne.symm hkey_e)]
    exact odLookup_odErase_self hndc
  · rw [odLookup_odAssign_ne _ _ (Ne.symm hkey_e)]
    exact odLookup_odErase_self hndf
  · intro x hx hxe
    have hkeyerase : key ∉ odKeys (odErase s.cache e) := by
      rw [odKeys_odErase]
      intro hmem
      exact (odLookup_eq_none_iff _ _).mp hnew (List.mem_of_mem_erase hmem)
    rw [odAssign_of_not_mem _ hkeyerase, odKeys_append]
    refine List.mem_append.mpr (Or.inl ?_)
    rw [odKeys_odErase]
    exact (List.mem_erase_of_ne hxe).mpr hx

/-- Witness for C3: capacity-2 tier holding a (count 2) and b (count 1);
putting fresh key c evicts b. -/
theorem lfuPut_evicts_min_count_witness :
    ∃ e l1 c l2,
      lfuPut ⟨2, [("a", "A"), ("b", "B")], [("a", 2), ("b", 1)]⟩ "c" "C" = some
        ⟨(2 : Int),
          odAssign (odErase [("a", "A"), ("b", "B")] e) "c" "C",
          odAssign (odErase [("a", 2), ("b", 1)] e) "c" 1⟩ ∧
      e ∈ odKeys [("a", "A"), ("b", "B")] ∧
      ([("a", 2), ("b", 1)] : List (String × Nat)) = l1 ++ (e, c) :: l2 ∧
      (∀ q ∈ l1, c < q.2) ∧ (∀ q ∈ l2, c ≤ q.2) ∧
      (∀ x ∈ odKeys [("a", "A"), ("b", "B")], c ≤ ctrGet [("a", 2), ("b", 1)] x) ∧
      odLookup (odAssign (odErase [("a", "A"), ("b", "B")] e) "c" "C") e = none ∧
      odLookup (odAssign (odErase [("a", 2), ("b", 1)] e) "c" 1) e = none ∧
      (∀ x ∈ odKeys [("a", "A"), ("b", "B")], x ≠ e →
        x ∈ odKeys (odAssign (odErase [("a", "A"), ("b", "B")] e) "c" "C")) :=
  lfuPut_evicts_min_count ⟨2, [("a", "A"), ("b", "B")], [("a", 2), ("b", 1)]⟩ "c" "C"
    (by decide) (by decide) (by decide) (by decide) (by decide) (by decide)

/-! ### Recency order machinery for the LRU eviction-order property -/

theorem sublist_erase_of_not_mem {s l : List String} {a : String}
    (hs : s.Sublist l) (ha : a ∉ s) : s.Sublist (l.erase a) := by
  induction hs with
  | slnil => simp
  | cons b hsub ih =>
    by_cases hb : b = a
    · subst hb
      rw [List.erase_cons_head]
      exact hsub
    · rw [List.erase_cons_tail (by simpa using hb)]
      exact (ih ha).cons b
  | cons₂ b hsub ih =>
    rename_i s1 l1
    have hb : b ≠ a := by
      rintro rfl
      exact ha (List.mem_cons_self ..)
    rw [List.erase_cons_tail (by simpa using hb)]
    exact (ih fun hm => ha (List.mem_cons_of_mem _ hm)).cons₂ b

theorem nodup_erase_append {keys : List String} (x : String) (hnd : keys.Nodup) :
    ((keys.erase x) ++ [x]).Nodup := by
  refine List.Nodup.append (hnd.erase x) (by simp) ?_
  intro a ha hax
  simp only [List.mem_singleton] at hax
  subst hax
  exact hnd.not_mem_erase ha

theorem before_shift {keys : List String} {j k x : String}
    (hB : List.Sublist [j, k] keys) (hj : x ≠ j) :
    List.Sublist [j, k] ((keys.erase x) ++ [x]) := by
  by_cases hk : x = k
  · subst hk
    have hjmem : j ∈ keys := hB.subset (by simp)
    have hjx : j ≠ x := fun h => hj h.symm
    have hmem : j ∈ keys.erase x := (List.mem_erase_of_ne hjx).mpr hjmem
    have h1 : List.Sublist [j] (keys.erase x) := List.singleton_sublist.mpr hmem
    simpa using h1.append (List.Sublist.refl [x])
  · have h1 : List.Sublist [j, k] (keys.erase x) :=
      sublist_erase_of_not_mem hB (by simp [hj, hk])
    exact h1.trans (List.sublist_append_left _ _)

theorem lruStep_preserves_before {s s' : LRUPolicy} {op : LRUOp} {j k : String}
    (hnd : (odKeys s.cache).Nodup) (hj : op.key ≠ j)
    (hB : j ∈ odKeys s.cache → lruBefore s.cache j k)
    (h : lruStep s op = some s') :
    (odKeys s'.cache).Nodup ∧ (j ∈ odKeys s'.cache → lruBefore s'.cache j k) := by
  cases op with
  | get x =>
    simp only [LRUOp.key] at hj
    cases Option.some.inj h
    unfold lruGet
    split
    · rename_i v hv
      refine ⟨?_, fun hjm => ?_⟩
      · show ((odKeys (odErase s.cache x ++ [(x, v)]))).Nodup
        simp only [odKeys_append, odKeys_odErase, odKeys_cons, odKeys_nil]
        exact nodup_erase_append x hnd
      · show List.Sublist [j, k] (odKeys (odErase s.cache x ++ [(x, v)]))
        simp only [odKeys_append, odKeys_odErase, odKeys_cons, odKeys_nil] at hjm ⊢
        have hjc : j ∈ odKeys s.cache := by
          rcases List.mem_append.mp hjm with hm | hm
          · exact List.mem_of_mem_erase hm
          · simp only [List.mem_singleton] at hm
            exact absurd hm.symm hj
        exact before_shift (hB hjc) hj
    · exact ⟨hnd, hB⟩
  | put x v =>
    simp only [LRUOp.key] at hj
    simp only [lruStep] at h
    unfold lruPut at h
    split at h
    · rename_i v0 hv0
      cases Option.some.inj h
      have hxk : x ∈ odKeys (odErase s.cache x ++ [(x, v0)]) := by simp
      refine ⟨?_, fun hjm => ?_⟩
      · show ((odKeys (odAssign (odErase s.cache x ++ [(x, v0)]) x v))).Nodup
        rw [odKeys_odAssign_of_mem _ hxk]
        simp only [odKeys_append, odKeys_odErase, odKeys_cons, odKeys_nil]
        exact nodup_erase_append x hnd
      · show List.Sublist [j, k] (odKeys (odAssign (odErase s.cache x ++ [(x, v0)]) x v))
        rw [odKeys_odAssign_of_mem _ hxk] at hjm ⊢
        simp only [odKeys_append, odKeys_odErase, odKeys_cons, odKeys_nil] at hjm ⊢
        have hjc : j ∈ odKeys s.cache := by
          rcases List.mem_append.mp hjm with hm | hm
          · exact List.mem_of_mem_erase hm
          · simp only [List.mem_singleton] at hm
            exact absurd hm.symm hj
        exact before_shift (hB hjc) hj
    · rename_i hv0
      have hx : x ∉ odKeys s.cache := (odLookup_eq_none_iff _ _).mp hv0
      split at h
      · rename_i hge
        split at h
        · exact Option.noConfusion h
        · rename_i hd rest hcache
          obtain ⟨hk1, hv1⟩ := hd
          cases Option.some.inj h
          have hxrest : x ∉ odKeys rest := by
            rw [hcache] at hx
            simp only [odKeys_cons, List.mem_cons, not_or] at hx
            exact hx.2
          have hkeys : odKeys (odAssign rest x v) = odKeys rest ++ [x] := by
            rw [odAssign_of_not_mem _ hxrest]
            simp
          have hnd2 : (odKeys rest).Nodup ∧ hk1 ∉ odKeys rest := by
            rw [hcache] at hnd
            simp only [odKeys_cons, List.nodup_cons] at hnd
            exact ⟨hnd.2, hnd.1⟩
          refine ⟨?_, fun hjm => ?_⟩
          · show ((odKeys (odAssign rest x v))).Nodup
            rw [hkeys]
            refine List.Nodup.append hnd2.1 (by simp) ?_
            intro a ha hax
            simp only [List.mem_singleton] at hax
            subst hax
            exact hxrest ha
          · show List.Sublist [j, k] (odKeys (odAssign rest x v))
            rw [hkeys] at hjm ⊢
            have hjrest : j ∈ odKeys rest := by
              rcases List.mem_append.mp hjm with hm | hm
              · exact hm
              · simp only [List.mem_singleton] at hm
                exact absurd hm.symm hj
            have hjc : j ∈ odKeys s.cache := by
              rw [hcache]
              simp [hjrest]
            have hbef := hB hjc
            rw [lruBefore, hcache] at hbef
            simp only [odKeys_cons] at hbef
            cases hbef with
            | cons _ hsub => exact hsub.trans (List.sublist_append_left _ _)
            | cons₂ _ hsub => exact absurd hjrest hnd2.2
      · rename_i hge
        cases Option.some.inj h
        have hkeys : odKeys (odAssign s.cache x v) = odKeys s.cache ++ [x] := by
          rw [odAssign_of_not_mem _ hx]
          simp
        refine ⟨?_, fun hjm => ?_⟩
        · show ((odKeys (odAssign s.cache x v))).Nodup
          rw [hkeys]
          refine List.Nodup.append hnd (by simp) ?_
          intro a ha hax
          simp only [List.mem_singleton] at hax
          subst hax
          exact hx ha
        · show List.Sublist [j, k] (odKeys (odAssign s.cache x v))
          rw [hkeys] at hjm ⊢
          have hjc : j ∈ odKeys s.cache := by
            rcases List.mem_append.mp hjm with hm | hm
            · exact hm
            · simp only [List.mem_singleton] at hm
              exact absurd hm.symm hj
          exact (hB hjc).trans (List.sublist_append_left _ _)

theorem lruRun_preserves_before {ops : List LRUOp} {s s2 : LRUPolicy} {j k : String}
    (hnd : (odKeys s.cache).Nodup)
    (hops : ∀ op ∈ ops, op.key ≠ j)
    (hB : j ∈ odKeys s.cache → lruBefore s.cache j k)
    (h : lruRun s ops = some s2) :
    (odKeys s2.cache).Nodup ∧ (j ∈ odKeys s2.cache → lruBefore s2.cache j k) := by
  induction ops generalizing s with
  | nil =>
    cases Option.some.inj h
    exact ⟨hnd, hB⟩
  | cons op rest ih =>
    unfold lruRun at h
    rw [List.foldlM_cons] at h
    rcases h1 : lruStep s op with _ | s1
    · rw [h1] at h
      simp at h
    · rw [h1] at h
      replace h : lruRun s1 rest = some s2 := h
      obtain ⟨hnd1, hB1⟩ :=
        lruStep_preserves_before hnd (hops op (List.mem_cons_self ..)) hB h1
      exact ih hnd1 (fun o ho => hops o (List.mem_cons_of_mem _ ho)) hB1 h

theorem lruRun_fill (ks : List (String × String)) : ∀ (s : LRUPolicy),
    (odKeys s.cache ++ ks.map Prod.fst).Nodup →
    (s.cache.length : Int) + ks.length ≤ s.size →
    lruRun s (ks.map fun p => LRUOp.put p.1 p.2) = some ⟨s.size, s.cache ++ ks⟩ := by
  induction ks with
  | nil =>
    intro s hnd hlen
    simp [lruRun]
  | cons p rest ih =>
    intro s hnd hlen
    obtain ⟨x, v⟩ := p
    have hx : x ∉ odKeys s.cache := by
      rw [List.map_cons, List.nodup_append] at hnd
      intro hmem
      exact hnd.2.2 hmem (by simp)
    have hlt : ¬ ((s.cache.length : Int) ≥ s.size) := by
      simp only [List.length_cons] at hlen
      push_cast at hlen ⊢
      omega
    have hstep : lruPut s x v = some ⟨s.size, s.cache ++ [(x, v)]⟩ := by
      unfold lruPut
      split
      · rename_i v0 hv0
        rw [(odLookup_eq_none_iff _ _).mpr hx] at hv0
        exact Option.noConfusion hv0
      · rw [if_neg hlt, odAssign_of_not_mem _ hx]
    have ih2 := ih ⟨s.size, s.cache ++ [(x, v)]⟩
      (by
        show (odKeys (s.cache ++ [(x, v)]) ++ rest.map Prod.fst).Nodup
        simp only [odKeys_append, odKeys_cons, odKeys_nil, List.append_assoc,
          List.singleton_append]
        simpa using hnd)
      (by
        show ((s.cache ++ [(x, v)]).length : Int) + rest.length ≤ s.size
        simp only [List.length_append, List.length_singleton, List.length_cons,
          List.length_nil] at hlen ⊢
        push_cast at hlen ⊢
        omega)
    rw [List.map_cons]
    unfold lruRun
    rw [List.foldlM_cons]
    show (lruPut s x v >>=
      fun s1 => List.foldlM lruStep s1 (rest.map fun p => LRUOp.put p.1 p.2)) = _
    rw [hstep]
    show List.foldlM lruStep (⟨s.size, s.cache ++ [(x, v)]⟩ : LRUPolicy)
      (rest.map fun p => LRUOp.put p.1 p.2) = _
    unfold lruRun at ih2
    rw [ih2]
    simp [List.append_assoc]

/-- C4: for a RecencyTier of capacity N ≥ 1, (a) inserting N+1 distinct
keys into the empty tier with no intervening gets leaves exactly the last
N keys — the first-inserted key and no other is evicted; and (b) after a
`get` hit on key k, under any subsequent operation sequence that never
touches a key j held at the time of the hit, k is evicted only after j:
if k is gone, j is gone. -/
theorem lru_eviction_order :
    (∀ (ks : List (String × String)) (N : Nat), 1 ≤ N → ks.length = N + 1 →
      (ks.map Prod.fst).Nodup →
      lruRun ⟨(N : Int), []⟩ (ks.map fun p => LRUOp.put p.1 p.2) =
        some ⟨(N : Int), ks.tail⟩) ∧
    (∀ (s : LRUPolicy) (k vk j : String) (ops : List LRUOp) (s2 : LRUPolicy),
      (odKeys s.cache).Nodup → odLookup s.cache k = some vk → j ∈ odKeys s.cache →
      j ≠ k → (∀ op ∈ ops, op.key ≠ j) → lruRun (lruGet s k).2 ops = some s2 →
      k ∉ odKeys s2.cache → j ∉ odKeys s2.cache) := by
  constructor
  · intro ks N hN hlen hnd
    rcases ks.eq_nil_or_concat with rfl | ⟨init, last, rfl⟩
    · simp at hlen
    · obtain ⟨x, v⟩ := last
      rw [List.concat_eq_append] at hlen hnd ⊢
      have hinit_len : init.length = N := by
        simp only [List.length_append, List.length_singleton] at hlen
        omega
      cases init with
      | nil => simp at hinit_len; omega
      | cons hd irest =>
        obtain ⟨hk1, hv1⟩ := hd
        rw [List.map_append] at hnd
        have hnd_init : (((hk1, hv1) :: irest).map Prod.fst).Nodup :=
          hnd.of_append_left
        have hxinit : x ∉ (((hk1, hv1) :: irest).map Prod.fst) := by
          rw [List.nodup_append] at hnd
          intro hmem
          exact hnd.2.2 hmem (by simp)
        have hfill := lruRun_fill ((hk1, hv1) :: irest) ⟨(N : Int), []⟩
          (by simpa using hnd_init)
          (by
            show ((([] : List (String × String)).length : Int) +
              ((hk1, hv1) :: irest).length ≤ (N : Int))
            simp [hinit_len])
        have hxirest : x ∉ odKeys irest := by
          intro hmem
          exact hxinit (by simp [odKeys] at hmem ⊢; exact Or.inr hmem)
        have hfin : lruPut ⟨(N : Int), [] ++ (hk1, hv1) :: irest⟩ x v =
            some ⟨(N : Int), irest ++ [(x, v)]⟩ := by
          simp only [List.nil_append]
          unfold lruPut
          split
          · rename_i v0 hv0
            have : x ∉ odKeys ((hk1, hv1) :: irest) := by simpa [odKeys] using hxinit
            rw [(odLookup_eq_none_iff _ _).mpr this] at hv0
            exact Option.noConfusion hv0
          · rw [if_pos (by
              show ((((hk1, hv1) :: irest).length : Int) ≥ (N : Int))
              simp only [List.length_cons]
              have : irest.length + 1 = N := by simpa using hinit_len
              omega)]
            show some (⟨(N : Int), odAssign irest x v⟩ : LRUPolicy) = _
            rw [odAssign_of_not_mem _ hxirest]
        rw [List.map_append]
        unfold lruRun
        rw [List.foldlM_append]
        unfold lruRun at hfill
        rw [hfill]
        simp only [Option.some_bind, List.map_cons, List.map_nil, List.foldlM_cons,
          List.foldlM_nil]
        show (lruPut ⟨(N : Int), [] ++ (hk1, hv1) :: irest⟩ x v >>= pure) = _
        rw [hfin]
        simp
  · intro s k vk j ops s2 hnd hk hj hjk hops hrun hknot
    have hs1 : (lruGet s k).2 = { s with cache := odErase s.cache k ++ [(k, vk)] } := by
      unfold lruGet
      rw [hk]
    rw [hs1] at hrun
    have hnd1 : (odKeys (odErase s.cache k ++ [(k, vk)])).Nodup := by
      simp only [odKeys_append, odKeys_odErase, odKeys_cons, odKeys_nil]
      exact nodup_erase_append k hnd
    have hB1 : j ∈ odKeys (odErase s.cache k ++ [(k, vk)]) →
        lruBefore (odErase s.cache k ++ [(k, vk)]) j k := by
      intro _
      rw [lruBefore]
      simp only [odKeys_append, odKeys_odErase, odKeys_cons, odKeys_nil]
      have hjmem : j ∈ (odKeys s.cache).erase k := (List.mem_erase_of_ne hjk).mpr hj
      simpa using (List.singleton_sublist.mpr hjmem).append (List.Sublist.refl [k])
    obtain ⟨hnd2, hB2⟩ := lruRun_preserves_before hnd1 hops hB1 hrun
    intro hjmem2
    exact hknot ((hB2 hjmem2).subset (by simp))

/-- Witness for C4: three distinct puts into an empty capacity-2 tier drop
exactly the first key; and after a hit on k, a run of two fresh puts that
evicts k has also evicted the untouched key j. -/
theorem lru_eviction_order_witness :
    lruRun ⟨((2 : Nat) : Int), []⟩
        ([("a", "1"), ("b", "2"), ("c", "3")].map fun p => LRUOp.put p.1 p.2) =
      some ⟨((2 : Nat) : Int), [("a", "1"), ("b", "2"), ("c", "3")].tail⟩ ∧
    "j" ∉ odKeys (LRUPolicy.mk 2 [("x", "X"), ("y", "Y")]).cache :=
  ⟨lru_eviction_order.1 [("a", "1"), ("b", "2"), ("c", "3")] 2 (by decide) (by decide)
      (by decide),
   lru_eviction_order.2 ⟨2, [("j", "J"), ("k", "K")]⟩ "k" "K" "j"
      [.put "x" "X", .put "y" "Y"] ⟨2, [("x", "X"), ("y", "Y")]⟩ (by decide) (by decide)
      (by decide) (by decide) (by decide) (by decide) (by decide)⟩

/-! ### Level-level hit/miss characterization for the orchestrator -/

theorem Level.get_fst (lv : Level) (key : String) :
    (lv.get key).1 = lv.lookupVal key := by
  cases lv with
  | lru p => rcases h : odLookup p.cache key with _ | w <;>
      simp [Level.get, lruGet, Level.lookupVal, h]
  | lfu q => rcases h : odLookup q.cache key with _ | w <;>
      simp [Level.get, lfuGet, Level.lookupVal, h]

theorem Level.get_miss (lv : Level) {key : String} (hm : lv.lookupVal key = none) :
    lv.get key = (none, lv) := by
  cases lv with
  | lru p =>
    rw [Level.lookupVal] at hm
    rw [Level.get, lruGet, hm]
  | lfu q =>
    rw [Level.lookupVal] at hm
    rw [Level.get, lfuGet, hm]

theorem Level.get_hit_lru (p : LRUPolicy) {key w : String}
    (hw : odLookup p.cache key = some w) :
    Level.get (.lru p) key =
      (some w, .lru ⟨p.size, odErase p.cache key ++ [(key, w)]⟩) := by
  rw [Level.get, lruGet, hw]

theorem Level.get_hit_lfu (q : LFUPolicy) {key w : String}
    (hw : odLookup q.cache key = some w) :
    Level.get (.lfu q) key =
      (some w, .lfu ⟨q.size, q.cache, ctrIncr q.frequency key⟩) := by
  rw [Level.get, lfuGet, hw]

theorem refreshLevel_miss (lv : Level) (key v : String)
    (hm : lv.lookupVal key = none) : refreshLevel lv key v = some lv := by
  rw [refreshLevel, Level.get_miss lv hm]

theorem mem_keys_shift {keys : List String} {key : String} (hkey : key ∈ keys)
    (x : String) : x ∈ keys.erase key ++ [key] ↔ x ∈ keys := by
  constructor
  · intro hx
    rcases List.mem_append.mp hx with hm | hm
    · exact List.mem_of_mem_erase hm
    · simp only [List.mem_singleton] at hm
      exact hm ▸ hkey
  · intro hx
    by_cases hxe : x = key
    · exact List.mem_append.mpr (Or.inr (by simp [hxe]))
    · exact List.mem_append.mpr (Or.inl ((List.mem_erase_of_ne hxe).mpr hx))

theorem wf_hit_lru (p : LRUPolicy) {key w : String} (hwf : p.wf)
    (hw : odLookup p.cache key = some w) :
    LRUPolicy.wf ⟨p.size, odErase p.cache key ++ [(key, w)]⟩ := by
  obtain ⟨h1, h2, h3⟩ := hwf
  have hmem := mem_odKeys_of_odLookup hw
  have hlen := odErase_length_of_mem hmem
  refine ⟨h1, ?_, ?_⟩
  · show ((odErase p.cache key ++ [(key, w)]).length : Int) ≤ p.size
    simp only [List.length_append, List.length_singleton]
    omega
  · show (odKeys (odErase p.cache key ++ [(key, w)])).Nodup
    simp only [odKeys_append, odKeys_odErase, odKeys_cons, odKeys_nil]
    exact nodup_erase_append key h3

theorem wf_hit_lfu (q : LFUPolicy) {key : String} (hwf : q.wf)
    (hmem : key ∈ odKeys q.cache) :
    LFUPolicy.wf ⟨q.size, q.cache, ctrIncr q.frequency key⟩ := by
  obtain ⟨h1, h2, h3, h4, h5⟩ := hwf
  have hkf : key ∈ odKeys q.frequency := h5.mem_iff.mpr hmem
  have hkeys : odKeys (ctrIncr q.frequency key) = odKeys q.frequency :=
    odKeys_odAssign_of_mem _ hkf
  exact ⟨h1, h2, h3, by rw [ctrIncr] at hkeys ⊢; rw [hkeys]; exact h4,
    by rw [ctrIncr] at hkeys ⊢; rw [hkeys]; exact h5⟩

theorem refreshLevel_hit_lru (p : LRUPolicy) {key w : String} (v : String)
    (hwf : p.wf) (hw : odLookup p.cache key = some w) :
    refreshLevel (.lru p) key v =
      some (.lru ⟨p.size, odErase p.cache key ++ [(key, v)]⟩) := by
  obtain ⟨h1, h2, h3⟩ := hwf
  have hmem := mem_odKeys_of_odLookup hw
  have hlen := odErase_length_of_mem hmem
  have hne : key ∉ odKeys (odErase p.cache key) := by
    rw [odKeys_odErase]
    exact h3.not_mem_erase
  rw [refreshLevel, Level.get_hit_lru p hw]
  show (Level.remove (.lru ⟨p.size, odErase p.cache key ++ [(key, w)]⟩) key).put key v = _
  have hlook2 : odLookup (odErase p.cache key ++ [(key, w)]) key = some w := by
    rw [odLookup_append_of_not_mem _ hne, odLookup]
    simp
  have hrem : Level.remove (.lru ⟨p.size, odErase p.cache key ++ [(key, w)]⟩) key =
      .lru ⟨p.size, odErase p.cache key⟩ := by
    rw [Level.remove, lruRemove, evRemove]
    rw [hlook2]
    simp only [Option.isSome_some, if_true]
    rw [odErase_append_of_not_mem _ hne]
    show Level.lru ⟨p.size, odErase p.cache key ++ odErase [(key, w)] key⟩ = _
    rw [odErase]
    simp
  rw [hrem]
  rw [Level.put]
  have hlook3 : odLookup (odErase p.cache key) key = none := odLookup_odErase_self h3
  have hlt : ¬ (((odErase p.cache key).length : Int) ≥ p.size) := by
    push_cast
    omega
  rw [lruPut]
  rw [hlook3, if_neg hlt, odAssign_of_not_mem _ hne]
  rfl

theorem refreshLevel_hit_lfu (q : LFUPolicy) {key w : String} (v : String)
    (hwf : q.wf) (hw : odLookup q.cache key = some w) :
    refreshLevel (.lfu q) key v =
      some (.lfu ⟨q.size, odErase q.cache key ++ [(key, v)],
        odAssign (ctrIncr q.frequency key) key 1⟩) := by
  obtain ⟨h1, h2, h3, h4, h5⟩ := hwf
  have hmem := mem_odKeys_of_odLookup hw
  have hlen := odErase_length_of_mem hmem
  have hne : key ∉ odKeys (odErase q.cache key) := by
    rw [odKeys_odErase]
    exact h3.not_mem_erase
  rw [refreshLevel, Level.get_hit_lfu q hw]
  show (Level.remove (.lfu ⟨q.size, q.cache, ctrIncr q.frequency key⟩) key).put key v = _
  have hrem : Level.remove (.lfu ⟨q.size, q.cache, ctrIncr q.frequency key⟩) key =
      .lfu ⟨q.size, odErase q.cache key, ctrIncr q.frequency key⟩ := by
    rw [Level.remove, lfuRemove, evRemove]
    rw [hw]
    rfl
  rw [hrem, Level.put]
  have hlook3 : odLookup (odErase q.cache key) key = none := odLookup_odErase_self h3
  have hlt : ¬ (((odErase q.cache key).length : Int) ≥ q.size) := by
    push_cast
    omega
  rw [lfuPut]
  rw [hlook3, if_neg hlt, odAssign_of_not_mem _ hne]
  rfl

theorem get_hit_bundle (lv : Level) {key w : String} (hwf : lv.wf)
    (hw : lv.lookupVal key = some w) :
    lv.get key = (some w, (lv.get key).2) ∧ ((lv.get key).2).wf ∧
      ((lv.get key).2).lookupVal key = some w ∧
      (∀ x, x ∈ ((lv.get key).2).keyList ↔ x ∈ lv.keyList) := by
  cases lv with
  | lru p =>
    rw [Level.lookupVal] at hw
    rw [Level.get_hit_lru p hw]
    have hmem := mem_odKeys_of_odLookup hw
    have hne : key ∉ odKeys (odErase p.cache key) := by
      rw [odKeys_odErase]
      exact hwf.2.2.not_mem_erase
    refine ⟨rfl, wf_hit_lru p hwf hw, ?_, ?_⟩
    · show odLookup (odErase p.cache key ++ [(key, w)]) key = some w
      rw [odLookup_append_of_not_mem _ hne, odLookup]
      simp
    · intro x
      show x ∈ odKeys (odErase p.cache key ++ [(key, w)]) ↔ x ∈ odKeys p.cache
      simp only [odKeys_append, odKeys_odErase, odKeys_cons, odKeys_nil]
      exact mem_keys_shift hmem x
  | lfu q =>
    rw [Level.lookupVal] at hw
    rw [Level.get_hit_lfu q hw]
    have hmem := mem_odKeys_of_odLookup hw
    exact ⟨rfl, wf_hit_lfu q hwf hmem, hw, fun x => Iff.rfl⟩

theorem refreshLevel_hit (lv : Level) {key w : String} (v : String) (hwf : lv.wf)
    (hw : lv.lookupVal key = some w) :
    ∃ lv', refreshLevel lv key v = some lv' ∧
      (∀ x, x ∈ lv'.keyList ↔ x ∈ lv.keyList) ∧ lv'.lookupVal key = some v := by
  cases lv with
  | lru p =>
    rw [Level.lookupVal] at hw
    have hmem := mem_odKeys_of_odLookup hw
    have hne : key ∉ odKeys (odErase p.cache key) := by
      rw [odKeys_odErase]
      exact hwf.2.2.not_mem_erase
    refine ⟨.lru ⟨p.size, odErase p.cache key ++ [(key, v)]⟩,
      refreshLevel_hit_lru p v hwf hw, ?_, ?_⟩
    · intro x
      show x ∈ odKeys (odErase p.cache key ++ [(key, v)]) ↔ x ∈ odKeys p.cache
      simp only [odKeys_append, odKeys_odErase, odKeys_cons, odKeys_nil]
      exact mem_keys_shift hmem x
    · show odLookup (odErase p.cache key ++ [(key, v)]) key = some v
      rw [odLookup_append_of_not_mem _ hne, odLookup]
      simp
  | lfu q =>
    rw [Level.lookupVal] at hw
    have hmem := mem_odKeys_of_odLookup hw
    have hne : key ∉ odKeys (odErase q.cache key) := by
      rw [odKeys_odErase]
      exact hwf.2.2.1.not_mem_erase
    refine ⟨.lfu ⟨q.size, odErase q.cache key ++ [(key, v)],
        odAssign (ctrIncr q.frequency key) key 1⟩,
      refreshLevel_hit_lfu q v hwf hw, ?_, ?_⟩
    · intro x
      show x ∈ odKeys (odErase q.cache key ++ [(key, v)]) ↔ x ∈ odKeys q.cache
      simp only [odKeys_append, odKeys_odErase, odKeys_cons, odKeys_nil]
      exact mem_keys_shift hmem x
    · show odLookup (odErase q.cache key ++ [(key, v)]) key = some v
      rw [odLookup_append_of_not_mem _ hne, odLookup]
      simp

theorem refreshLevel_total (lv : Level) (key v : String) (hwf : lv.wf) :
    ∃ lv', refreshLevel lv key v = some lv' := by
  rcases hl : lv.lookupVal key with _ | w
  · exact ⟨lv, refreshLevel_miss lv key v hl⟩
  · obtain ⟨lv', h, _, _⟩ := refreshLevel_hit lv v hwf hl
    exact ⟨lv', h⟩

theorem moveUpTail_all_miss (key v : String) (ls : List Level)
    (h : ∀ lv ∈ ls, lv.lookupVal key = none) : moveUpTail key v ls = some ls := by
  induction ls with
  | nil => rfl
  | cons lv rest ih =>
    rw [moveUpTail, refreshLevel_miss lv key v (h lv (List.mem_cons_self ..)),
      ih fun l hl => h l (List.mem_cons_of_mem _ hl)]

theorem moveUpTail_structured (key v : String) (l1 l3 : List Level) (lv lv' : Level)
    (h1 : ∀ l ∈ l1, l.lookupVal key = none) (h3 : ∀ l ∈ l3, l.lookupVal key = none)
    (hr : refreshLevel lv key v = some lv') :
    moveUpTail key v (l1 ++ lv :: l3) = some (l1 ++ lv' :: l3) := by
  induction l1 with
  | nil =>
    rw [List.nil_append, moveUpTail, hr, moveUpTail_all_miss key v l3 h3]
    rfl
  | cons l l1' ih =>
    rw [List.cons_append, moveUpTail,
      refreshLevel_miss l key v (h1 l (List.mem_cons_self ..)),
      ih fun x hx => h1 x (List.mem_cons_of_mem _ hx)]
    rfl

theorem moveUpTail_total (key v : String) (ls : List Level)
    (h : ∀ lv ∈ ls, lv.wf) : ∃ ls', moveUpTail key v ls = some ls' := by
  induction ls with
  | nil => exact ⟨[], rfl⟩
  | cons lv rest ih =>
    obtain ⟨lv', hlv⟩ := refreshLevel_total lv key v (h lv (List.mem_cons_self ..))
    obtain ⟨rest', hrest⟩ := ih fun l hl => h l (List.mem_cons_of_mem _ hl)
    exact ⟨lv' :: rest', by rw [moveUpTail, hlv, hrest]⟩

theorem sysGetLoop_append_miss (key : String) (pre rest : List Level)
    (hpre : ∀ lv ∈ pre, lv.lookupVal key = none) :
    sysGetLoop key (pre ++ rest) =
      ((sysGetLoop key rest).1, pre ++ (sysGetLoop key rest).2) := by
  induction pre with
  | nil => simp
  | cons lv pre' ih =>
    rw [List.cons_append, sysGetLoop,
      Level.get_miss lv (hpre lv (List.mem_cons_self ..)),
      ih fun l hl => hpre l (List.mem_cons_of_mem _ hl)]
    rfl

theorem sysGetLoop_cons_hit {lv : Level} {key v : String} (post : List Level)
    (hv : lv.lookupVal key = some v) :
    sysGetLoop key (lv :: post) = (some v, (lv.get key).2 :: post) := by
  rcases hg : lv.get key with ⟨r, lv1⟩
  have hr : r = some v := by
    have := Level.get_fst lv key
    rw [hg] at this
    rw [this.symm] at hv
    exact hv
  subst hr
  rw [sysGetLoop, hg]

theorem sysGet_assemble {s : MultilevelCacheSystem} {key v : String} {l0 : Level}
    {rest rest' : List Level}
    (hloop : sysGetLoop key s.levels = (some v, l0 :: rest))
    (hmu : moveUpTail key v rest = some rest') :
    sysGet s key = some (some v, ⟨l0 :: rest'⟩) := by
  unfold sysGet
  rw [hloop]
  show (match moveUpTail key v rest with
    | none => none
    | some rest' => some (some v, (⟨l0 :: rest'⟩ : MultilevelCacheSystem))) = _
  rw [hmu]

theorem moveUpTail_append_miss (key v : String) (l1 l2 : List Level)
    (h1 : ∀ l ∈ l1, l.lookupVal key = none) :
    moveUpTail key v (l1 ++ l2) = (moveUpTail key v l2).map (l1 ++ ·) := by
  induction l1 with
  | nil =>
    rcases hm : moveUpTail key v l2 with _ | l2' <;> simp [hm]
  | cons l l1' ih =>
    rw [List.cons_append, moveUpTail,
      refreshLevel_miss l key v (h1 l (List.mem_cons_self ..)),
      ih fun x hx => h1 x (List.mem_cons_of_mem _ hx)]
    rcases hm : moveUpTail key v l2 with _ | l2' <;> simp [hm]

/-- C2: a `MultilevelCacheSystem.get` on a key present only in tier k with
k > 0 (all tiers well-formed) returns that key's value, leaves every other
tier — in particular all of tiers 0..k-1, which do not gain the key —
exactly as it was, and rewrites tier k only in place: the set of keys tier
k holds is unchanged, so the refresh pass never relocates an entry to a
different tier. -/
theorem sysGet_refreshes_in_place (s : MultilevelCacheSystem) (key v : String)
    (pre post : List Level) (lvk : Level)
    (hs : s.levels = pre ++ lvk :: post)
    (hpre_ne : pre ≠ [])
    (hpre : ∀ lv ∈ pre, lv.lookupVal key = none)
    (hpost : ∀ lv ∈ post, lv.lookupVal key = none)
    (hwf : lvk.wf)
    (hhit : lvk.lookupVal key = some v) :
    ∃ lvk',
      sysGet s key = some (some v, ⟨pre ++ lvk' :: post⟩) ∧
      (∀ x, x ∈ lvk'.keyList ↔ x ∈ lvk.keyList) := by
  obtain ⟨p0, pre', rfl⟩ : ∃ p0 pre', pre = p0 :: pre' := by
    cases pre with
    | nil => exact absurd rfl hpre_ne
    | cons a b => exact ⟨a, b, rfl⟩
  obtain ⟨hfst, hwf1, hlook1, hkeys1⟩ := get_hit_bundle lvk hwf hhit
  obtain ⟨lvk2, hr, hkeys2, _⟩ := refreshLevel_hit ((lvk.get key).2) v hwf1 hlook1
  have hloop : sysGetLoop key s.levels =
      (some v, p0 :: (pre' ++ (lvk.get key).2 :: post)) := by
    rw [hs, sysGetLoop_append_miss key (p0 :: pre') _ hpre,
      sysGetLoop_cons_hit post hhit]
    rfl
  have hmu : moveUpTail key v (pre' ++ (lvk.get key).2 :: post) =
      some (pre' ++ lvk2 :: post) :=
    moveUpTail_structured key v pre' post _ lvk2
      (fun l hl => hpre l (List.mem_cons_of_mem _ hl)) hpost hr
  exact ⟨lvk2, sysGet_assemble hloop hmu, fun x => (hkeys2 x).trans (hkeys1 x)⟩

/-- Witness for C2: a full, untouched tier 0 and a hit in a capacity-2
FrequencyTier at tier 1. -/
theorem sysGet_refreshes_in_place_witness :
    ∃ lvk',
      sysGet ⟨[.lru ⟨1, [("z", "Z")]⟩,
          .lfu ⟨2, [("a", "A"), ("b", "B")], [("a", 3), ("b", 1)]⟩]⟩ "a" =
        some (some "A", ⟨[.lru ⟨1, [("z", "Z")]⟩] ++ lvk' :: []⟩) ∧
      (∀ x, x ∈ lvk'.keyList ↔
        x ∈ (Level.lfu ⟨2, [("a", "A"), ("b", "B")], [("a", 3), ("b", 1)]⟩).keyList) :=
  sysGet_refreshes_in_place
    ⟨[.lru ⟨1, [("z", "Z")]⟩, .lfu ⟨2, [("a", "A"), ("b", "B")], [("a", 3), ("b", 1)]⟩]⟩
    "a" "A" [.lru ⟨1, [("z", "Z")]⟩] []
    (.lfu ⟨2, [("a", "A"), ("b", "B")], [("a", 3), ("b", 1)]⟩)
    rfl (by decide) (by decide) (by decide) (by decide) (by decide)

/-- C10: when the first hit of a `MultilevelCacheSystem.get` lands in a
FrequencyTier at tier index k ≥ 1, the refresh pass's remove-then-reinsert
overwrites the hit's increments and leaves the key's access count in that
tier at exactly 1; when the first hit lands in a FrequencyTier at tier
index 0, the count is simply incremented by 1, because the refresh pass
skips tier 0. -/
theorem sysGet_lfu_hit_count :
    (∀ (s : MultilevelCacheSystem) (key v : String) (pre post : List Level)
        (q : LFUPolicy),
      s.levels = pre ++ .lfu q :: post → pre ≠ [] →
      (∀ lv ∈ pre, lv.lookupVal key = none) → (∀ lv ∈ post, lv.wf) → q.wf →
      odLookup q.cache key = some v →
      ∃ q' post',
        sysGet s key = some (some v, ⟨pre ++ .lfu q' :: post'⟩) ∧
        odLookup q'.frequency key = some 1) ∧
    (∀ (s : MultilevelCacheSystem) (key v : String) (rest : List Level)
        (q : LFUPolicy),
      s.levels = .lfu q :: rest → (∀ lv ∈ rest, lv.wf) →
      odLookup q.cache key = some v →
      ∃ rest',
        sysGet s key =
          some (some v, ⟨.lfu ⟨q.size, q.cache, ctrIncr q.frequency key⟩ :: rest'⟩) ∧
        odLookup (ctrIncr q.frequency key) key = some (ctrGet q.frequency key + 1)) := by
  constructor
  · intro s key v pre post q hs hpre_ne hpre hpost hwf hhit
    obtain ⟨p0, pre', rfl⟩ : ∃ p0 pre', pre = p0 :: pre' := by
      cases pre with
      | nil => exact absurd rfl hpre_ne
      | cons a b => exact ⟨a, b, rfl⟩
    have hmem := mem_odKeys_of_odLookup hhit
    have hwf1 : LFUPolicy.wf ⟨q.size, q.cache, ctrIncr q.frequency key⟩ :=
      wf_hit_lfu q hwf hmem
    have hloop : sysGetLoop key s.levels =
        (some v, p0 :: (pre' ++
          (.lfu ⟨q.size, q.cache, ctrIncr q.frequency key⟩ : Level) :: post)) := by
      rw [hs, sysGetLoop_append_miss key (p0 :: pre') _ hpre,
        sysGetLoop_cons_hit post (show (Level.lfu q).lookupVal key = some v from hhit)]
      rw [Level.get_hit_lfu q hhit]
      rfl
    obtain ⟨post', hpost'⟩ := moveUpTail_total key v post hpost
    have hrefresh := refreshLevel_hit_lfu ⟨q.size, q.cache, ctrIncr q.frequency key⟩ v
      hwf1 (show odLookup q.cache key = some v from hhit)
    have hmu : moveUpTail key v (pre' ++
        (.lfu ⟨q.size, q.cache, ctrIncr q.frequency key⟩ : Level) :: post) =
        some (pre' ++
          (.lfu ⟨q.size, odErase q.cache key ++ [(key, v)],
            odAssign (ctrIncr (ctrIncr q.frequency key) key) key 1⟩ : Level) :: post') := by
      rw [moveUpTail_append_miss key v pre' _
        (fun l hl => hpre l (List.mem_cons_of_mem _ hl))]
      rw [moveUpTail, hrefresh, hpost']
      rfl
    refine ⟨⟨q.size, odErase q.cache key ++ [(key, v)],
        odAssign (ctrIncr (ctrIncr q.frequency key) key) key 1⟩, post',
      sysGet_assemble hloop hmu, odLookup_odAssign_self ..⟩
  · intro s key v rest q hs hwf hhit
    obtain ⟨rest', hrest'⟩ := moveUpTail_total key v rest hwf
    have hloop : sysGetLoop key s.levels =
        (some v, (.lfu ⟨q.size, q.cache, ctrIncr q.frequency key⟩ : Level) :: rest) := by
      rw [hs, sysGetLoop_cons_hit rest (show (Level.lfu q).lookupVal key = some v from hhit)]
      rw [Level.get_hit_lfu q hhit]
    refine ⟨rest', sysGet_assemble hloop hrest', ?_⟩
    rw [ctrIncr]
    exact odLookup_odAssign_self ..

/-- Witness for C10: a hit at a FrequencyTier at tier 1 ends with count 1;
a hit at a FrequencyTier at tier 0 ends with the count bumped from 4 to 5. -/
theorem sysGet_lfu_hit_count_witness :
    (∃ q' post',
      sysGet ⟨[.lru ⟨1, [("z", "Z")]⟩,
          .lfu ⟨2, [("a", "A"), ("b", "B")], [("a", 3), ("b", 1)]⟩]⟩ "a" =
        some (some "A", ⟨[.lru ⟨1, [("z", "Z")]⟩] ++ .lfu q' :: post'⟩) ∧
      odLookup q'.frequency "a" = some 1) ∧
    (∃ rest',
      sysGet ⟨[.lfu ⟨2, [("a", "A")], [("a", 4)]⟩]⟩ "a" =
        some (some "A",
          ⟨.lfu ⟨2, [("a", "A")], ctrIncr [("a", 4)] "a"⟩ :: rest'⟩) ∧
      odLookup (ctrIncr [("a", 4)] "a") "a" = some (ctrGet [("a", 4)] "a" + 1)) :=
  ⟨sysGet_lfu_hit_count.1
      ⟨[.lru ⟨1, [("z", "Z")]⟩, .lfu ⟨2, [("a", "A"), ("b", "B")], [("a", 3), ("b", 1)]⟩]⟩
      "a" "A" [.lru ⟨1, [("z", "Z")]⟩] [] ⟨2, [("a", "A"), ("b", "B")], [("a", 3), ("b", 1)]⟩
      rfl (by decide) (by decide) (by decide) (by decide) (by decide),
   sysGet_lfu_hit_count.2 ⟨[.lfu ⟨2, [("a", "A")], [("a", 4)]⟩]⟩ "a" "A" []
      ⟨2, [("a", "A")], [("a", 4)]⟩ rfl (by decide) (by decide)⟩
